import Mathlib

/-!  A shallow embedding of the minitorch tensor core (src/minitorch/tensor_ops.py).
Storage cells are rationals standing for the Python floats; shapes, strides and
multi-dimensional indices are lists of naturals.  The index/stride helpers live in
a module that is not part of the embedded sources, so they are modelled from the
specification (sections 4.1 and 4.2); everything else is translated from
tensor_ops.py.  -/

/-- Modelled from the spec: operators.prod (the operators module is not under src/),
the product of a sequence of dimension sizes (section 3, product(shape)). -/
def operators.prod (l : List ℕ) : ℕ := l.prod

/-- Modelled from the spec: to_index (the tensor_data module is not under src/),
section 4.1: converts a linear ordinal to the unique multi-dimensional index such
that increasing ordinals visit indices in row-major (last-dimension-fastest)
order. -/
def to_index : ℕ → List ℕ → List ℕ
  | _, [] => []
  | n, s :: rest =>
    (n / operators.prod rest) % s :: to_index (n % operators.prod rest) rest

/-- Modelled from the spec: index_to_position (the tensor_data module is not under
src/), section 4.1: the dot product of index and strides. -/
def index_to_position (index strides : List ℕ) : ℕ :=
  (List.zipWith (fun i s => i * s) index strides).sum

/-- Modelled from the spec: broadcast_index (the tensor_data module is not under
src/), section 4.1: trailing alignment; each output component is 0 where
small_shape has size 1, else the aligned component of big_index. -/
def broadcast_index (big_index : List ℕ) (big_shape small_shape : List ℕ) : List ℕ :=
  (List.range small_shape.length).map (fun d =>
    if small_shape.getD d 0 = 1 then 0
    else big_index.getD (d + (big_shape.length - small_shape.length)) 0)

/-- Modelled from the spec: shape_broadcast (section 4.2) on one aligned dimension
pair: equal sizes broadcast to themselves, size 1 broadcasts to the other size,
anything else is a shape-mismatch. -/
def broadcastDim (x y : ℕ) : Option ℕ :=
  if x = y then some x
  else if x = 1 then some y
  else if y = 1 then some x
  else none

/-- Modelled from the spec: shape_broadcast on reversed shapes (so the alignment is
trailing); missing leading dimensions are treated as size 1, hence an exhausted
operand contributes the other operand's remaining sizes. -/
def shapeBroadcastRev : List ℕ → List ℕ → Option (List ℕ)
  | [], ys => some ys
  | x :: xs, [] => some (x :: xs)
  | x :: xs, y :: ys =>
    match broadcastDim x y, shapeBroadcastRev xs ys with
    | some d, some rest => some (d :: rest)
    | _, _ => none

/-- Modelled from the spec: shape_broadcast (the tensor_data module is not under
src/), section 4.2: the broadcast result shape, or none on shape-mismatch. -/
def shape_broadcast (a b : List ℕ) : Option (List ℕ) :=
  (shapeBroadcastRev a.reverse b.reverse).map List.reverse

/-- Modelled from the spec: the canonical row-major strides of a shape (section 8,
row_major_strides), the strides of freshly allocated tensors. -/
def strides_from_shape : List ℕ → List ℕ
  | [] => []
  | _ :: rest => operators.prod rest :: strides_from_shape rest

/-- Storage is a flat mutable sequence of scalars (spec section 3); the float cells
are modelled as rationals. -/
abbrev Storage := List ℚ

/-- A tensor-like operand: the (storage, shape, strides) triple that a.tuple()
passes to the low-level procedures. -/
structure Tensor where
  storage : Storage
  shape : List ℕ
  strides : List ℕ
deriving DecidableEq, Repr

/-- Modelled from the spec: the zero-tensor factory collaborators supply (section
6): a zero-filled contiguous tensor of the given shape with row-major strides. -/
def Tensor.zeros (shape : List ℕ) : Tensor :=
  ⟨List.replicate (operators.prod shape) 0, shape, strides_from_shape shape⟩

/-- Applies a list of (position, value) writes to a storage buffer, left to
right.  The loop bodies of the three procedures write exactly one cell per
iteration and never read the output buffer, so each procedure is the application
of its write trace. -/
def applyWrites (ws : List (ℕ × ℚ)) (out : Storage) : Storage :=
  ws.foldl (fun acc w => acc.set w.1 w.2) out

/-- The output-storage position written for ordinal i: index_to_position of
to_index of i (tensor_ops.py lines 294 and 298, and lines 424-425). -/
def outPos (out_shape out_strides : List ℕ) (i : ℕ) : ℕ :=
  index_to_position (to_index i out_shape) out_strides

/-- The write trace of tensor_map (tensor_ops.py lines 292-301): one (position,
value) pair per ordinal of out_shape, the value being fn of the input cell at the
broadcast index. -/
def mapWrites (fn : ℚ → ℚ) (out_shape out_strides : List ℕ)
    (in_storage : Storage) (in_shape in_strides : List ℕ) : List (ℕ × ℚ) :=
  (List.range (operators.prod out_shape)).map (fun i =>
    (outPos out_shape out_strides i,
     fn (in_storage.getD (index_to_position
       (broadcast_index (to_index i out_shape) out_shape in_shape) in_strides) 0)))

/-- Embeds tensor_map from tensor_ops.py (lines 280-305). -/
def tensor_map (fn : ℚ → ℚ) (out : Storage) (out_shape out_strides : List ℕ)
    (in_storage : Storage) (in_shape in_strides : List ℕ) : Storage :=
  applyWrites (mapWrites fn out_shape out_strides in_storage in_shape in_strides) out

/-- The inlined broadcasting of the general path of tensor_zip (tensor_ops.py
lines 369-379): per dimension of the operand shape, 0 where that dimension has
size 1, else the out-index component at the same (leading-aligned) dimension. -/
def zipIndex (shape out_index : List ℕ) : List ℕ :=
  (List.range shape.length).map (fun d =>
    if shape.getD d 0 = 1 then 0 else out_index.getD d 0)

/-- The write trace of the fast path of tensor_zip (tensor_ops.py lines 342-354),
taken when all three shapes are equal: the out index itself addresses all three
storages. -/
def zipFastWrites (fn : ℚ → ℚ → ℚ) (out_shape out_strides : List ℕ)
    (a_storage : Storage) (a_strides : List ℕ)
    (b_storage : Storage) (b_strides : List ℕ) : List (ℕ × ℚ) :=
  (List.range (operators.prod out_shape)).map (fun i =>
    (outPos out_shape out_strides i,
     fn (a_storage.getD (index_to_position (to_index i out_shape) a_strides) 0)
        (b_storage.getD (index_to_position (to_index i out_shape) b_strides) 0)))

/-- The write trace of the general path of tensor_zip (tensor_ops.py lines
356-387): each operand index is derived from the out index by zipIndex. -/
def zipGeneralWrites (fn : ℚ → ℚ → ℚ) (out_shape out_strides : List ℕ)
    (a_storage : Storage) (a_shape a_strides : List ℕ)
    (b_storage : Storage) (b_shape b_strides : List ℕ) : List (ℕ × ℚ) :=
  (List.range (operators.prod out_shape)).map (fun i =>
    (outPos out_shape out_strides i,
     fn (a_storage.getD (index_to_position
          (zipIndex a_shape (to_index i out_shape)) a_strides) 0)
        (b_storage.getD (index_to_position
          (zipIndex b_shape (to_index i out_shape)) b_strides) 0)))

/-- Embeds tensor_zip from tensor_ops.py (lines 326-389): the fast path when all
three shapes are equal, else the general broadcasting path. -/
def tensor_zip (fn : ℚ → ℚ → ℚ) (out : Storage) (out_shape out_strides : List ℕ)
    (a_storage : Storage) (a_shape a_strides : List ℕ)
    (b_storage : Storage) (b_shape b_strides : List ℕ) : Storage :=
  if a_shape = b_shape ∧ a_shape = out_shape ∧ b_shape = out_shape then
    applyWrites
      (zipFastWrites fn out_shape out_strides a_storage a_strides b_storage b_strides) out
  else
    applyWrites
      (zipGeneralWrites fn out_shape out_strides a_storage a_shape a_strides
        b_storage b_shape b_strides) out

/-- The values read along the reduced dimension for a given out index, in
increasing reduce_pos order (tensor_ops.py lines 427-433). -/
def reduceReads (out_index : List ℕ) (a_storage : Storage) (a_strides : List ℕ)
    (reduce_dim dim_size : ℕ) : List ℚ :=
  (List.range dim_size).map (fun reduce_pos =>
    a_storage.getD (index_to_position (out_index.set reduce_dim reduce_pos) a_strides) 0)

/-- Embeds the accumulator loop of tensor_reduce (tensor_ops.py lines 423-435):
res starts as None, becomes the first read value, and is then combined with fn
left to right in increasing reduce_pos order. -/
def reduceAcc (fn : ℚ → ℚ → ℚ) (a_storage : Storage) (a_strides : List ℕ)
    (out_index : List ℕ) (reduce_dim dim_size : ℕ) : Option ℚ :=
  (List.range dim_size).foldl (fun res reduce_pos =>
    let v := a_storage.getD (index_to_position (out_index.set reduce_dim reduce_pos) a_strides) 0
    match res with
    | none => some v
    | some r => some (fn r v)) none

/-- Embeds tensor_reduce from tensor_ops.py (lines 410-439).  When dim_size is 0
the source would store None into a float buffer (an error); the embedding leaves
that cell unchanged. -/
def tensor_reduce (fn : ℚ → ℚ → ℚ) (out : Storage) (out_shape out_strides : List ℕ)
    (a_storage : Storage) (a_shape a_strides : List ℕ) (reduce_dim : ℕ) : Storage :=
  let dim_size := a_shape.getD reduce_dim 0
  (List.range out.length).foldl (fun acc out_pos =>
    let out_index := to_index out_pos out_shape
    let out_storage_pos := index_to_position out_index out_strides
    match reduceAcc fn a_storage a_strides out_index reduce_dim dim_size with
    | some res => acc.set out_storage_pos res
    | none => acc) out

/-- The write trace of tensor_reduce: one write per out ordinal whose accumulator
is defined (always, when the reduced dimension is nonempty). -/
def reduceWrites (fn : ℚ → ℚ → ℚ) (out_len : ℕ) (out_shape out_strides : List ℕ)
    (a_storage : Storage) (a_shape a_strides : List ℕ) (reduce_dim : ℕ) : List (ℕ × ℚ) :=
  (List.range out_len).filterMap (fun out_pos =>
    (reduceAcc fn a_storage a_strides (to_index out_pos out_shape) reduce_dim
        (a_shape.getD reduce_dim 0)).map
      (fun res => (outPos out_shape out_strides out_pos, res)))

namespace SimpleOps

/-- Embeds SimpleOps.map (tensor_ops.py lines 92-132) at its default out argument:
allocates a zero tensor of the input shape and runs tensor_map into it. -/
def map (fn : ℚ → ℚ) (a : Tensor) : Tensor :=
  let out := Tensor.zeros a.shape
  let st := tensor_map fn out.storage out.shape out.strides a.storage a.shape a.strides
  { out with storage := st }

/-- Embeds SimpleOps.zip (tensor_ops.py lines 134-178): broadcasts the two shapes
when they differ, allocates the output and runs tensor_zip; none on
shape-mismatch. -/
def zip (fn : ℚ → ℚ → ℚ) (a b : Tensor) : Option Tensor :=
  let cOpt := if a.shape = b.shape then some a.shape else shape_broadcast a.shape b.shape
  cOpt.map (fun c_shape =>
    let out := Tensor.zeros c_shape
    let st := tensor_zip fn out.storage out.shape out.strides
      a.storage a.shape a.strides b.storage b.shape b.strides
    { out with storage := st })

/-- Embeds SimpleOps.reduce (tensor_ops.py lines 180-239): the output shape is the
input shape with entry dim set to 1, the output storage is pre-filled with start,
then tensor_reduce runs into it. -/
def reduce (fn : ℚ → ℚ → ℚ) (start : ℚ) (a : Tensor) (dim : ℕ) : Tensor :=
  let out_shape := a.shape.set dim 1
  let out := Tensor.zeros out_shape
  let out := { out with storage := List.replicate out.storage.length start }
  let st := tensor_reduce fn out.storage out.shape out.strides
    a.storage a.shape a.strides dim
  { out with storage := st }

/-- Embeds SimpleOps.matrix_multiply (tensor_ops.py lines 241-244): raises
NotImplementedError unconditionally. -/
def matrix_multiply (_a _b : Tensor) : Except String Tensor :=
  Except.error "Not implemented in this assignment"

end SimpleOps

/-- Embeds the TensorBackend table (tensor_ops.py lines 50-88), restricted to the
bound operations the claims mention; the scalar catalogue lives in the operators
module which is not under src/, so identity, addition and multiplication are
modelled from the spec's catalogue in section 4.4. -/
structure TensorBackend where
  id_map : Tensor → Tensor
  add_zip : Tensor → Tensor → Option Tensor
  mul_zip : Tensor → Tensor → Option Tensor
  add_reduce : Tensor → ℕ → Tensor
  mul_reduce : Tensor → ℕ → Tensor
  matrix_multiply : Tensor → Tensor → Except String Tensor

/-- Embeds SimpleBackend = TensorBackend(SimpleOps) (tensor_ops.py line 442). -/
def SimpleBackend : TensorBackend :=
  ⟨SimpleOps.map id,
   SimpleOps.zip (fun x y => x + y),
   SimpleOps.zip (fun x y => x * y),
   SimpleOps.reduce (fun x y => x + y) 0,
   SimpleOps.reduce (fun x y => x * y) 1,
   SimpleOps.matrix_multiply⟩

/-- A multi-dimensional index is valid for a shape when it has one component per
dimension, each strictly below the dimension's size (spec section 3). -/
def validIndex (idx shape : List ℕ) : Prop :=
  idx.length = shape.length ∧ ∀ d, d < shape.length → idx.getD d 0 < shape.getD d 0

instance (idx shape : List ℕ) : Decidable (validIndex idx shape) := by
  unfold validIndex; exact inferInstance

/-- The precondition of tensor_map (spec section 4.3): in_shape broadcasts to
out_shape, i.e. combining them yields out_shape itself. -/
def broadcastsTo (s t : List ℕ) : Prop := shape_broadcast s t = some t

instance (s t : List ℕ) : Decidable (broadcastsTo s t) := by
  unfold broadcastsTo; exact inferInstance

/-- Folds a binary function over a list taking the first element as the initial
accumulator, left to right; none on the empty list.  This is the fold shape of
the res accumulator of tensor_reduce. -/
def foldFirst (fn : ℚ → ℚ → ℚ) : List ℚ → Option ℚ
  | [] => none
  | x :: xs => some (xs.foldl fn x)

/-- The value tensor_reduce stores for one out index when the reduced dimension
is nonempty (the getD default is never used then). -/
def redVal (fn : ℚ → ℚ → ℚ) (a_storage : Storage) (a_strides : List ℕ)
    (out_index : List ℕ) (reduce_dim dim_size : ℕ) : ℚ :=
  (reduceAcc fn a_storage a_strides out_index reduce_dim dim_size).getD 0

/-!  Basic list helpers.  -/

theorem getD_lt {α : Type} (l : List α) (i : ℕ) (d : α) (h : i < l.length) :
    l.getD i d = l[i] := by
  simp [List.getD_eq_getElem?_getD, List.getElem?_eq_getElem h]

theorem getD_set_self {α : Type} (l : List α) (i : ℕ) (a d : α) (h : i < l.length) :
    (l.set i a).getD i d = a := by
  simp [List.getD_eq_getElem?_getD, List.getElem?_set_self h]

theorem getD_set_ne {α : Type} (l : List α) (i j : ℕ) (a d : α) (h : i ≠ j) :
    (l.set i a).getD j d = l.getD j d := by
  simp [List.getD_eq_getElem?_getD, List.getElem?_set_ne h]

theorem ext_of_getD {α : Type} (l₁ l₂ : List α) (d : α)
    (hlen : l₁.length = l₂.length)
    (h : ∀ i, i < l₁.length → l₁.getD i d = l₂.getD i d) : l₁ = l₂ := by
  apply List.ext_getElem hlen
  intro i h₁ h₂
  rw [← getD_lt l₁ i d h₁, ← getD_lt l₂ i d h₂]
  exact h i h₁

theorem getD_replicate {α : Type} (n i : ℕ) (a d : α) (h : i < n) :
    (List.replicate n a).getD i d = a := by
  rw [getD_lt _ _ _ (by simpa using h)]
  exact List.getElem_replicate ..

/-!  Write-trace helpers.  -/

theorem applyWrites_length (ws : List (ℕ × ℚ)) (out : Storage) :
    (applyWrites ws out).length = out.length := by
  induction ws generalizing out with
  | nil => rfl
  | cons w ws ih => simpa [applyWrites] using (ih (out.set w.1 w.2)).trans (by simp)

theorem applyWrites_append (ws₁ ws₂ : List (ℕ × ℚ)) (out : Storage) :
    applyWrites (ws₁ ++ ws₂) out = applyWrites ws₂ (applyWrites ws₁ out) :=
  List.foldl_append ..

/-- Last-writer lemma: in a trace of one write per ordinal, the final content at
the position of ordinal i is i's value, provided no later ordinal hits the same
position. -/
theorem applyWrites_range_getD (pos : ℕ → ℕ) (val : ℕ → ℚ) (out : Storage) (N i : ℕ)
    (hi : i < N) (hb : pos i < out.length)
    (hlater : ∀ j, i < j → j < N → pos j ≠ pos i) :
    (applyWrites ((List.range N).map (fun k => (pos k, val k))) out).getD (pos i) 0
      = val i := by
  induction N with
  | zero => omega
  | succ n ih =>
    rw [List.range_succ, List.map_append, applyWrites_append]
    simp only [List.map_cons, List.map_nil]
    have hstep : applyWrites [(pos n, val n)]
        (applyWrites ((List.range n).map (fun k => (pos k, val k))) out)
        = (applyWrites ((List.range n).map (fun k => (pos k, val k))) out).set
            (pos n) (val n) := rfl
    rw [hstep]
    rcases Nat.lt_or_ge i n with hin | hin
    · have hne : pos n ≠ pos i := hlater n hin (Nat.lt_succ_self n)
      rw [getD_set_ne _ _ _ _ _ hne]
      exact ih hin (fun j hj hj' => hlater j hj (Nat.lt_succ_of_lt hj'))
    · have hii : i = n := by omega
      subst hii
      have hlen : pos i <
          (applyWrites ((List.range i).map (fun k => (pos k, val k))) out).length := by
        rw [applyWrites_length]; exact hb
      exact getD_set_self _ _ _ _ hlen

/-!  Index and stride arithmetic.  -/

theorem itp_cons (x : ℕ) (xs : List ℕ) (y : ℕ) (ys : List ℕ) :
    index_to_position (x :: xs) (y :: ys) = x * y + index_to_position xs ys := by
  simp [index_to_position]

theorem prod_cons (s : ℕ) (rest : List ℕ) :
    operators.prod (s :: rest) = s * operators.prod rest := List.prod_cons

theorem to_index_length (n : ℕ) (shape : List ℕ) :
    (to_index n shape).length = shape.length := by
  induction shape generalizing n with
  | nil => rfl
  | cons s rest ih => simp [to_index, ih]

theorem to_index_getD_one (n d : ℕ) (shape : List ℕ) (h : shape.getD d 0 = 1) :
    (to_index n shape).getD d 0 = 0 := by
  induction shape generalizing n d with
  | nil => simp [to_index]
  | cons s rest ih =>
    cases d with
    | zero =>
      have hs : s = 1 := by simpa using h
      simp only [to_index, hs, List.getD_cons_zero]
      omega
    | succ d =>
      have h' : rest.getD d 0 = 1 := by simpa using h
      simpa [to_index] using ih (n % operators.prod rest) d h'

theorem to_index_roundtrip (shape : List ℕ) (n : ℕ) (h : n < operators.prod shape) :
    index_to_position (to_index n shape) (strides_from_shape shape) = n := by
  induction shape generalizing n with
  | nil =>
    have hn : n = 0 := by simpa [operators.prod] using h
    simp [hn, to_index, index_to_position, strides_from_shape]
  | cons s rest ih =>
    have hP : 0 < operators.prod rest := by
      rcases Nat.eq_zero_or_pos (operators.prod rest) with h0 | h0
      · rw [prod_cons, h0, Nat.mul_zero] at h; omega
      · exact h0
    rw [prod_cons] at h
    have hmod : n % operators.prod rest < operators.prod rest := Nat.mod_lt _ hP
    have hdiv : n / operators.prod rest < s := (Nat.div_lt_iff_lt_mul hP).mpr h
    simp only [to_index, strides_from_shape, itp_cons]
    rw [Nat.mod_eq_of_lt hdiv, ih _ hmod, Nat.mul_comm]
    exact Nat.div_add_mod n (operators.prod rest)

theorem validIndex_nil_iff (idx : List ℕ) : validIndex idx [] ↔ idx = [] := by
  constructor
  · intro hv
    exact List.length_eq_zero.mp hv.1
  · rintro rfl
    exact ⟨rfl, fun d hd => absurd hd (by simp)⟩

theorem validIndex_cons_iff (x s : ℕ) (idx shape : List ℕ) :
    validIndex (x :: idx) (s :: shape) ↔ x < s ∧ validIndex idx shape := by
  constructor
  · intro hv
    refine ⟨by simpa using hv.2 0 (Nat.succ_pos _), by simpa using hv.1, fun d hd => ?_⟩
    simpa using hv.2 (d + 1) (Nat.succ_lt_succ hd)
  · intro hv
    refine ⟨by simpa using hv.2.1, fun d hd => ?_⟩
    cases d with
    | zero => simpa using hv.1
    | succ d => simpa using hv.2.2 d (Nat.lt_of_succ_lt_succ hd)

theorem itp_lt_prod (idx shape : List ℕ) (h : validIndex idx shape) :
    index_to_position idx (strides_from_shape shape) < operators.prod shape := by
  induction shape generalizing idx with
  | nil =>
    rw [(validIndex_nil_iff idx).mp h]
    simp [index_to_position, strides_from_shape, operators.prod]
  | cons s rest ih =>
    obtain ⟨x, idx', rfl⟩ : ∃ x idx', idx = x :: idx' := by
      cases idx with
      | nil => exact absurd h.1 (by simp)
      | cons x idx' => exact ⟨x, idx', rfl⟩
    rw [validIndex_cons_iff] at h
    have hr := ih idx' h.2
    simp only [strides_from_shape, itp_cons, prod_cons]
    calc x * operators.prod rest + index_to_position idx' (strides_from_shape rest)
        < (x + 1) * operators.prod rest := by
          rw [Nat.add_mul, Nat.one_mul]; omega
    _ ≤ s * operators.prod rest := Nat.mul_le_mul_right _ h.1

theorem to_index_itp_inv (idx shape : List ℕ) (h : validIndex idx shape) :
    to_index (index_to_position idx (strides_from_shape shape)) shape = idx := by
  induction shape generalizing idx with
  | nil =>
    rw [(validIndex_nil_iff idx).mp h]
    rfl
  | cons s rest ih =>
    obtain ⟨x, idx', rfl⟩ : ∃ x idx', idx = x :: idx' := by
      cases idx with
      | nil => exact absurd h.1 (by simp)
      | cons x idx' => exact ⟨x, idx', rfl⟩
    rw [validIndex_cons_iff] at h
    have hr := itp_lt_prod idx' rest h.2
    have hP : 0 < operators.prod rest := Nat.lt_of_le_of_lt (Nat.zero_le _) hr
    simp only [strides_from_shape, itp_cons, to_index]
    rw [Nat.mul_comm x (operators.prod rest), Nat.mul_add_div hP, Nat.mul_add_mod,
      Nat.div_eq_of_lt hr, Nat.mod_eq_of_lt hr, Nat.add_zero, Nat.mod_eq_of_lt h.1,
      ih idx' h.2]

/-!  zipIndex and broadcast_index on indices produced by to_index.  -/

theorem zipIndex_to_index (shape : List ℕ) (n : ℕ) :
    zipIndex shape (to_index n shape) = to_index n shape := by
  apply List.ext_getElem
  · simp [zipIndex, to_index_length]
  · intro d h₁ h₂
    simp only [zipIndex, List.getElem_map, List.getElem_range]
    by_cases h1 : shape.getD d 0 = 1
    · rw [if_pos h1, ← getD_lt (to_index n shape) d 0 h₂]
      exact (to_index_getD_one n d shape h1).symm
    · rw [if_neg h1]
      exact getD_lt _ _ _ h₂

theorem broadcast_index_self (shape : List ℕ) (n : ℕ) :
    broadcast_index (to_index n shape) shape shape = to_index n shape := by
  have hbz : broadcast_index (to_index n shape) shape shape
      = zipIndex shape (to_index n shape) := by
    simp [broadcast_index, zipIndex]
  rw [hbz, zipIndex_to_index]

/-!  Symmetry of shape broadcasting.  -/

theorem broadcastDim_comm (x y : ℕ) : broadcastDim x y = broadcastDim y x := by
  unfold broadcastDim
  split_ifs <;> simp_all

theorem shapeBroadcastRev_comm (xs ys : List ℕ) :
    shapeBroadcastRev xs ys = shapeBroadcastRev ys xs := by
  induction xs generalizing ys with
  | nil => cases ys <;> rfl
  | cons x xs ih =>
    cases ys with
    | nil => rfl
    | cons y ys =>
      simp only [shapeBroadcastRev]
      rw [broadcastDim_comm, ih]

theorem shape_broadcast_comm (a b : List ℕ) :
    shape_broadcast a b = shape_broadcast b a := by
  unfold shape_broadcast
  rw [shapeBroadcastRev_comm]

/-!  The reduce accumulator is a first-element-seeded left fold.  -/

theorem reduceReads_length (out_index : List ℕ) (a_storage : Storage)
    (a_strides : List ℕ) (reduce_dim dim_size : ℕ) :
    (reduceReads out_index a_storage a_strides reduce_dim dim_size).length = dim_size := by
  simp [reduceReads]

theorem reduceAcc_eq_foldFirst (fn : ℚ → ℚ → ℚ) (a_storage : Storage)
    (a_strides : List ℕ) (out_index : List ℕ) (reduce_dim dim_size : ℕ) :
    reduceAcc fn a_storage a_strides out_index reduce_dim dim_size
      = foldFirst fn (reduceReads out_index a_storage a_strides reduce_dim dim_size) := by
  induction dim_size with
  | zero => rfl
  | succ n ih =>
    have hacc : reduceAcc fn a_storage a_strides out_index reduce_dim (n + 1)
        = (fun res v => match res with
            | none => some v
            | some r => some (fn r v))
          (reduceAcc fn a_storage a_strides out_index reduce_dim n)
          (a_storage.getD
            (index_to_position (out_index.set reduce_dim n) a_strides) 0) := by
      simp only [reduceAcc, List.range_succ, List.foldl_append, List.foldl_cons,
        List.foldl_nil]
    have hreads : reduceReads out_index a_storage a_strides reduce_dim (n + 1)
        = reduceReads out_index a_storage a_strides reduce_dim n
          ++ [a_storage.getD
              (index_to_position (out_index.set reduce_dim n) a_strides) 0] := by
      simp only [reduceReads, List.range_succ, List.map_append, List.map_cons,
        List.map_nil]
    rw [hacc, ih, hreads]
    cases hR : reduceReads out_index a_storage a_strides reduce_dim n with
    | nil => simp [foldFirst]
    | cons x xs => simp [foldFirst, List.foldl_append]

theorem reduceAcc_eq_some_redVal (fn : ℚ → ℚ → ℚ) (a_storage : Storage)
    (a_strides : List ℕ) (out_index : List ℕ) (reduce_dim dim_size : ℕ)
    (hdim : 1 ≤ dim_size) :
    reduceAcc fn a_storage a_strides out_index reduce_dim dim_size
      = some (redVal fn a_storage a_strides out_index reduce_dim dim_size) := by
  unfold redVal
  rw [reduceAcc_eq_foldFirst]
  cases hR : reduceReads out_index a_storage a_strides reduce_dim dim_size with
  | nil =>
    have := reduceReads_length out_index a_storage a_strides reduce_dim dim_size
    rw [hR] at this
    simp at this
    omega
  | cons x xs => rfl

theorem foldl_fn_congr {α β : Type} (f g : α → β → α) (init : α) (l : List β)
    (h : ∀ a b, f a b = g a b) : l.foldl f init = l.foldl g init := by
  have hfg : f = g := funext fun a => funext fun b => h a b
  rw [hfg]

theorem tensor_reduce_eq_applyWrites (fn : ℚ → ℚ → ℚ) (out : Storage)
    (out_shape out_strides : List ℕ) (a_storage : Storage) (a_shape a_strides : List ℕ)
    (reduce_dim : ℕ) (hdim : 1 ≤ a_shape.getD reduce_dim 0) :
    tensor_reduce fn out out_shape out_strides a_storage a_shape a_strides reduce_dim
      = applyWrites ((List.range out.length).map (fun o =>
          (outPos out_shape out_strides o,
           redVal fn a_storage a_strides (to_index o out_shape) reduce_dim
             (a_shape.getD reduce_dim 0)))) out := by
  simp only [tensor_reduce, applyWrites, List.foldl_map]
  apply foldl_fn_congr
  intro acc o
  rw [reduceAcc_eq_some_redVal _ _ _ _ _ _ hdim]
  rfl

/-!  Pointwise content of tensor_map and SimpleOps.map.  -/

theorem tensor_map_getD (fn : ℚ → ℚ) (out : Storage) (out_shape out_strides : List ℕ)
    (in_storage : Storage) (in_shape in_strides : List ℕ) (i : ℕ)
    (hi : i < operators.prod out_shape)
    (hb : outPos out_shape out_strides i < out.length)
    (hlater : ∀ j, i < j → j < operators.prod out_shape →
      outPos out_shape out_strides j ≠ outPos out_shape out_strides i) :
    (tensor_map fn out out_shape out_strides in_storage in_shape in_strides).getD
        (outPos out_shape out_strides i) 0
      = fn (in_storage.getD (index_to_position
          (broadcast_index (to_index i out_shape) out_shape in_shape) in_strides) 0) :=
  applyWrites_range_getD (fun k => outPos out_shape out_strides k)
    (fun k => fn (in_storage.getD (index_to_position
      (broadcast_index (to_index k out_shape) out_shape in_shape) in_strides) 0))
    out (operators.prod out_shape) i hi hb hlater

theorem simpleMap_storage_length (fn : ℚ → ℚ) (a : Tensor) :
    (SimpleOps.map fn a).storage.length = operators.prod a.shape := by
  show (tensor_map fn (List.replicate (operators.prod a.shape) 0) a.shape
      (strides_from_shape a.shape) a.storage a.shape a.strides).length = _
  rw [tensor_map, applyWrites_length, List.length_replicate]

theorem simpleMap_getD (fn : ℚ → ℚ) (a : Tensor) (k : ℕ)
    (hk : k < operators.prod a.shape) :
    (SimpleOps.map fn a).storage.getD k 0
      = fn (a.storage.getD (index_to_position (to_index k a.shape) a.strides) 0) := by
  have hst : (SimpleOps.map fn a).storage
      = tensor_map fn (List.replicate (operators.prod a.shape) 0) a.shape
          (strides_from_shape a.shape) a.storage a.shape a.strides := rfl
  have hpos : outPos a.shape (strides_from_shape a.shape) k = k :=
    to_index_roundtrip a.shape k hk
  have hb : outPos a.shape (strides_from_shape a.shape) k
      < (List.replicate (operators.prod a.shape) (0 : ℚ)).length := by
    rw [hpos, List.length_replicate]
    exact hk
  have hlater : ∀ j, k < j → j < operators.prod a.shape →
      outPos a.shape (strides_from_shape a.shape) j
        ≠ outPos a.shape (strides_from_shape a.shape) k := by
    intro j hj hj'
    rw [hpos,
      show outPos a.shape (strides_from_shape a.shape) j = j from
        to_index_roundtrip a.shape j hj']
    omega
  have h1 := tensor_map_getD fn (List.replicate (operators.prod a.shape) 0) a.shape
    (strides_from_shape a.shape) a.storage a.shape a.strides k hk hb hlater
  rw [hpos, broadcast_index_self] at h1
  rw [hst]
  exact h1

/-!  Generic helpers for write-position lists.  -/

theorem filterMap_eq_map_of_some {α β : Type} (f : α → Option β) (g : α → β) (l : List α)
    (h : ∀ x ∈ l, f x = some (g x)) : l.filterMap f = l.map g := by
  induction l with
  | nil => rfl
  | cons x xs ih =>
    have hx := h x (List.mem_cons_self x xs)
    rw [List.filterMap_cons, hx, List.map_cons,
      ih (fun y hy => h y (List.mem_cons_of_mem x hy))]

theorem map_fst_outPos_range (v : ℕ → ℚ) (out_shape : List ℕ) :
    ((List.range (operators.prod out_shape)).map (fun i =>
        (outPos out_shape (strides_from_shape out_shape) i, v i))).map Prod.fst
      = List.range (operators.prod out_shape) := by
  rw [List.map_map]
  have hmem : ∀ i ∈ List.range (operators.prod out_shape),
      (Prod.fst ∘ fun i => (outPos out_shape (strides_from_shape out_shape) i, v i)) i
        = id i := by
    intro i hi
    rw [List.mem_range] at hi
    simpa using to_index_roundtrip out_shape i hi
  rw [List.map_congr_left hmem, List.map_id]

/-!  Claim theorems.  -/

/-- C9: SimpleOps.matrix_multiply, and the matrix_multiply entry of the bound
backend, raise the "not implemented" condition unconditionally, for every pair of
tensor arguments, producing no result. -/
theorem matrix_multiply_raises (a b : Tensor) :
    SimpleOps.matrix_multiply a b
        = Except.error "Not implemented in this assignment"
    ∧ SimpleBackend.matrix_multiply a b
        = Except.error "Not implemented in this assignment" :=
  ⟨rfl, rfl⟩

/-- C4: for every input tensor and valid dimension, the tensor returned by the
function produced by SimpleOps.reduce(fn, start) has the input's shape with the
entry at the reduced dimension replaced by 1 and all other entries unchanged. -/
theorem simple_reduce_output_shape (fn : ℚ → ℚ → ℚ) (start : ℚ) (a : Tensor)
    (dim : ℕ) (hdim : dim < a.shape.length) :
    (SimpleOps.reduce fn start a dim).shape.length = a.shape.length
    ∧ (SimpleOps.reduce fn start a dim).shape.getD dim 0 = 1
    ∧ ∀ d, d ≠ dim →
        (SimpleOps.reduce fn start a dim).shape.getD d 0 = a.shape.getD d 0 := by
  have hsh : (SimpleOps.reduce fn start a dim).shape = a.shape.set dim 1 := rfl
  refine ⟨?_, ?_, ?_⟩
  · rw [hsh, List.length_set]
  · rw [hsh]
    exact getD_set_self _ _ _ _ hdim
  · intro d hd
    rw [hsh]
    exact getD_set_ne _ _ _ _ _ (Ne.symm hd)

/-- Closed instance of C4 at shape [2, 3], dim 1. -/
theorem simple_reduce_output_shape_witness :
    1 < ([2, 3] : List ℕ).length
    ∧ ((SimpleOps.reduce (fun x y => x + y) 0
          ⟨[1, 2, 3, 4, 5, 6], [2, 3], [3, 1]⟩ 1).shape.length
          = ([2, 3] : List ℕ).length
      ∧ (SimpleOps.reduce (fun x y => x + y) 0
          ⟨[1, 2, 3, 4, 5, 6], [2, 3], [3, 1]⟩ 1).shape.getD 1 0 = 1
      ∧ ∀ d, d ≠ 1 →
          (SimpleOps.reduce (fun x y => x + y) 0
            ⟨[1, 2, 3, 4, 5, 6], [2, 3], [3, 1]⟩ 1).shape.getD d 0
            = ([2, 3] : List ℕ).getD d 0) :=
  ⟨by decide,
   simple_reduce_output_shape (fun x y => x + y) 0
     ⟨[1, 2, 3, 4, 5, 6], [2, 3], [3, 1]⟩ 1 (by decide)⟩

/-- C1: a call of the procedure produced by tensor_map(fn) with an in_shape that
broadcasts to out_shape performs exactly one write per ordinal i in
[0, product(out_shape)) (the write trace is mapWrites), and when the out
positions are in range and ordinal-injective the final storage holds, at the
position of ordinal i, fn of the input cell at the broadcast index of i. -/
theorem tensor_map_ordinal_writes (fn : ℚ → ℚ) (out : Storage)
    (out_shape out_strides : List ℕ) (in_storage : Storage)
    (in_shape in_strides : List ℕ)
    (hbc : broadcastsTo in_shape out_shape)
    (hb : ∀ i, i < operators.prod out_shape →
      outPos out_shape out_strides i < out.length)
    (hinj : ∀ i, i < operators.prod out_shape → ∀ j, j < operators.prod out_shape →
      outPos out_shape out_strides i = outPos out_shape out_strides j → i = j) :
    tensor_map fn out out_shape out_strides in_storage in_shape in_strides
        = applyWrites (mapWrites fn out_shape out_strides in_storage in_shape
            in_strides) out
    ∧ ∀ i, i < operators.prod out_shape →
        (tensor_map fn out out_shape out_strides in_storage in_shape
            in_strides).getD (outPos out_shape out_strides i) 0
          = fn (in_storage.getD (index_to_position
              (broadcast_index (to_index i out_shape) out_shape in_shape)
              in_strides) 0) := by
  refine ⟨rfl, fun i hi => ?_⟩
  exact tensor_map_getD fn out out_shape out_strides in_storage in_shape in_strides
    i hi (hb i hi)
    (fun j hj hj' heq => absurd (hinj j hj' i hi heq) (by omega))

/-- Closed instance of C1 at out_shape [2] with identity strides. -/
theorem tensor_map_ordinal_writes_witness :
    (broadcastsTo [2] [2]
      ∧ (∀ i, i < operators.prod [2] → outPos [2] [1] i < ([0, 0] : Storage).length)
      ∧ (∀ i, i < operators.prod [2] → ∀ j, j < operators.prod [2] →
          outPos [2] [1] i = outPos [2] [1] j → i = j))
    ∧ (tensor_map id [0, 0] [2] [1] [5, 7] [2] [1]
          = applyWrites (mapWrites id [2] [1] [5, 7] [2] [1]) [0, 0]
      ∧ ∀ i, i < operators.prod [2] →
          (tensor_map id [0, 0] [2] [1] [5, 7] [2] [1]).getD (outPos [2] [1] i) 0
            = id (([5, 7] : Storage).getD (index_to_position
                (broadcast_index (to_index i [2]) [2] [2]) [1]) 0)) :=
  ⟨⟨by decide, by decide, by decide⟩,
   tensor_map_ordinal_writes id [0, 0] [2] [1] [5, 7] [2] [1]
     (by decide) (by decide) (by decide)⟩

/-- C3: when a_shape, b_shape and out_shape are all equal, the fast path of
tensor_zip(fn) writes exactly the same values to exactly the same out positions
as the general broadcasting path (the two write traces are equal lists), and the
procedure, which takes the fast path, produces what applying the general path's
writes would. -/
theorem tensor_zip_fast_path_refines_general (fn : ℚ → ℚ → ℚ) (out : Storage)
    (out_shape out_strides : List ℕ) (a_storage : Storage)
    (a_shape a_strides : List ℕ) (b_storage : Storage) (b_shape b_strides : List ℕ)
    (ha : a_shape = out_shape) (hb : b_shape = out_shape) :
    zipFastWrites fn out_shape out_strides a_storage a_strides b_storage b_strides
        = zipGeneralWrites fn out_shape out_strides a_storage a_shape a_strides
            b_storage b_shape b_strides
    ∧ tensor_zip fn out out_shape out_strides a_storage a_shape a_strides
          b_storage b_shape b_strides
        = applyWrites (zipGeneralWrites fn out_shape out_strides a_storage a_shape
            a_strides b_storage b_shape b_strides) out := by
  have htr : zipFastWrites fn out_shape out_strides a_storage a_strides b_storage
        b_strides
      = zipGeneralWrites fn out_shape out_strides a_storage a_shape a_strides
          b_storage b_shape b_strides := by
    rw [ha, hb]
    unfold zipFastWrites zipGeneralWrites
    apply List.map_congr_left
    intro i _
    rw [zipIndex_to_index]
  refine ⟨htr, ?_⟩
  unfold tensor_zip
  rw [if_pos ⟨ha.trans hb.symm, ha, hb⟩, htr]

/-- Closed instance of C3 at shape [2] with a non-commutative function. -/
theorem tensor_zip_fast_path_refines_general_witness :
    (([2] : List ℕ) = [2] ∧ ([2] : List ℕ) = [2])
    ∧ (zipFastWrites (fun x y => x - y) [2] [1] [1, 2] [1] [3, 4] [1]
          = zipGeneralWrites (fun x y => x - y) [2] [1] [1, 2] [2] [1] [3, 4] [2] [1]
      ∧ tensor_zip (fun x y => x - y) [0, 0] [2] [1] [1, 2] [2] [1] [3, 4] [2] [1]
          = applyWrites (zipGeneralWrites (fun x y => x - y) [2] [1] [1, 2] [2] [1]
              [3, 4] [2] [1]) [0, 0]) :=
  ⟨⟨rfl, rfl⟩,
   tensor_zip_fast_path_refines_general (fun x y => x - y) [0, 0] [2] [1] [1, 2]
     [2] [1] [3, 4] [2] [1] rfl rfl⟩

/-- C2: for the procedure produced by tensor_reduce(fn), each output position's
value is the left fold of fn over the input values along reduce_dim in increasing
reduce_pos order (0, 1, ..., a_shape[reduce_dim]-1), seeded with the first
element, for an arbitrary (hence possibly non-commutative) fn. -/
theorem tensor_reduce_fold_low_to_high (fn : ℚ → ℚ → ℚ) (out : Storage)
    (out_shape out_strides : List ℕ) (a_storage : Storage)
    (a_shape a_strides : List ℕ) (reduce_dim : ℕ)
    (hdim : 1 ≤ a_shape.getD reduce_dim 0)
    (hb : ∀ o, o < out.length → outPos out_shape out_strides o < out.length)
    (hinj : ∀ o, o < out.length → ∀ p, p < out.length →
      outPos out_shape out_strides o = outPos out_shape out_strides p → o = p) :
    ∀ o, o < out.length →
      foldFirst fn (reduceReads (to_index o out_shape) a_storage a_strides
          reduce_dim (a_shape.getD reduce_dim 0))
        = some ((tensor_reduce fn out out_shape out_strides a_storage a_shape
            a_strides reduce_dim).getD (outPos out_shape out_strides o) 0) := by
  intro o ho
  rw [tensor_reduce_eq_applyWrites fn out out_shape out_strides a_storage a_shape
    a_strides reduce_dim hdim]
  have hgd := applyWrites_range_getD (fun k => outPos out_shape out_strides k)
    (fun k => redVal fn a_storage a_strides (to_index k out_shape) reduce_dim
      (a_shape.getD reduce_dim 0))
    out out.length o ho (hb o ho)
    (fun j hj hj' heq => absurd (hinj j hj' o ho heq) (by omega))
  rw [hgd, ← reduceAcc_eq_foldFirst]
  exact reduceAcc_eq_some_redVal _ _ _ _ _ _ hdim

/-- Closed instance of C2: shape [2, 2] reduced along dimension 1 with
subtraction, a non-commutative function. -/
theorem tensor_reduce_fold_low_to_high_witness :
    (1 ≤ ([2, 2] : List ℕ).getD 1 0
      ∧ (∀ o, o < ([0, 0] : Storage).length →
          outPos [2, 1] [1, 1] o < ([0, 0] : Storage).length)
      ∧ (∀ o, o < ([0, 0] : Storage).length → ∀ p, p < ([0, 0] : Storage).length →
          outPos [2, 1] [1, 1] o = outPos [2, 1] [1, 1] p → o = p))
    ∧ ∀ o, o < ([0, 0] : Storage).length →
        foldFirst (fun x y => x - y) (reduceReads (to_index o [2, 1]) [1, 2, 3, 4]
            [2, 1] 1 (([2, 2] : List ℕ).getD 1 0))
          = some ((tensor_reduce (fun x y => x - y) [0, 0] [2, 1] [1, 1]
              [1, 2, 3, 4] [2, 2] [2, 1] 1).getD (outPos [2, 1] [1, 1] o) 0) :=
  ⟨⟨by decide, by decide, by decide⟩,
   tensor_reduce_fold_low_to_high (fun x y => x - y) [0, 0] [2, 1] [1, 1]
     [1, 2, 3, 4] [2, 2] [2, 1] 1 (by decide) (by decide) (by decide)⟩

/-- The low-level zip procedure is symmetric in its two operands whenever fn is
commutative: the branch condition and both write traces are symmetric. -/
theorem tensor_zip_comm (fn : ℚ → ℚ → ℚ) (hfn : ∀ x y, fn x y = fn y x)
    (out : Storage) (out_shape out_strides : List ℕ) (a_storage : Storage)
    (a_shape a_strides : List ℕ) (b_storage : Storage) (b_shape b_strides : List ℕ) :
    tensor_zip fn out out_shape out_strides a_storage a_shape a_strides
        b_storage b_shape b_strides
      = tensor_zip fn out out_shape out_strides b_storage b_shape b_strides
          a_storage a_shape a_strides := by
  have hfast : zipFastWrites fn out_shape out_strides a_storage a_strides
        b_storage b_strides
      = zipFastWrites fn out_shape out_strides b_storage b_strides
          a_storage a_strides := by
    unfold zipFastWrites
    apply List.map_congr_left
    intro i _
    rw [hfn]
  have hgen : zipGeneralWrites fn out_shape out_strides a_storage a_shape a_strides
        b_storage b_shape b_strides
      = zipGeneralWrites fn out_shape out_strides b_storage b_shape b_strides
          a_storage a_shape a_strides := by
    unfold zipGeneralWrites
    apply List.map_congr_left
    intro i _
    rw [hfn]
  unfold tensor_zip
  have hcond : (a_shape = b_shape ∧ a_shape = out_shape ∧ b_shape = out_shape)
      ↔ (b_shape = a_shape ∧ b_shape = out_shape ∧ a_shape = out_shape) :=
    ⟨fun h => ⟨h.1.symm, h.2.2, h.2.1⟩, fun h => ⟨h.1.symm, h.2.2, h.2.1⟩⟩
  exact if_congr hcond (by rw [hfast]) (by rw [hgen])

/-- C7: for tensors with broadcast-compatible shapes, zip with addition is
commutative: zip(add)(a, b) equals zip(add)(b, a) as whole output tensors, hence
at every output position. -/
theorem add_zip_commutative (a b : Tensor)
    (hc : (shape_broadcast a.shape b.shape).isSome) :
    SimpleBackend.add_zip a b = SimpleBackend.add_zip b a := by
  show SimpleOps.zip (fun x y => x + y) a b = SimpleOps.zip (fun x y => x + y) b a
  unfold SimpleOps.zip
  have hcopt :
      (if a.shape = b.shape then some a.shape else shape_broadcast a.shape b.shape)
        = (if b.shape = a.shape then some b.shape
            else shape_broadcast b.shape a.shape) := by
    by_cases h : a.shape = b.shape
    · rw [if_pos h, if_pos h.symm, h]
    · rw [if_neg h, if_neg (Ne.symm h), shape_broadcast_comm]
  rw [hcopt]
  refine congrFun (congrArg Option.map (funext fun c_shape => ?_)) _
  have hz := tensor_zip_comm (fun x y => x + y) (fun x y => add_comm x y)
    (Tensor.zeros c_shape).storage (Tensor.zeros c_shape).shape
    (Tensor.zeros c_shape).strides a.storage a.shape a.strides
    b.storage b.shape b.strides
  show ({ Tensor.zeros c_shape with
      storage := tensor_zip (fun x y => x + y) (Tensor.zeros c_shape).storage
        (Tensor.zeros c_shape).shape (Tensor.zeros c_shape).strides
        a.storage a.shape a.strides b.storage b.shape b.strides } : Tensor)
    = { Tensor.zeros c_shape with
      storage := tensor_zip (fun x y => x + y) (Tensor.zeros c_shape).storage
        (Tensor.zeros c_shape).shape (Tensor.zeros c_shape).strides
        b.storage b.shape b.strides a.storage a.shape a.strides }
  rw [hz]

/-- Closed instance of C7: a shape (2) tensor against a shape (1) tensor. -/
theorem add_zip_commutative_witness :
    (shape_broadcast [2] [1]).isSome
    ∧ SimpleBackend.add_zip ⟨[1, 2], [2], [1]⟩ ⟨[3], [1], [1]⟩
        = SimpleBackend.add_zip ⟨[3], [1], [1]⟩ ⟨[1, 2], [2], [1]⟩ :=
  ⟨by decide, add_zip_commutative ⟨[1, 2], [2], [1]⟩ ⟨[3], [1], [1]⟩ (by decide)⟩

/-- Folding addition over m ones starting from c gives c + m. -/
theorem foldl_add_replicate (m : ℕ) (c : ℚ) :
    (List.replicate m (1 : ℚ)).foldl (fun x y => x + y) c = c + m := by
  induction m generalizing c with
  | zero => simp
  | succ k ih =>
    rw [List.replicate_succ, List.foldl_cons, ih]
    push_cast
    ring

/-- C5: reducing a 1×N tensor of ones with addition and start 0 along dimension 1
yields a 1×1 tensor whose single stored value is N. -/
theorem add_reduce_ones_row (N : ℕ) (h : 1 ≤ N) :
    SimpleBackend.add_reduce ⟨List.replicate N 1, [1, N], [N, 1]⟩ 1
      = ⟨[(N : ℚ)], [1, 1], [1, 1]⟩ := by
  have hreads : reduceReads [0, 0] (List.replicate N (1 : ℚ)) [N, 1] 1 N
      = List.replicate N (1 : ℚ) := by
    unfold reduceReads
    have hmem : ∀ rp ∈ List.range N,
        (List.replicate N (1 : ℚ)).getD
            (index_to_position (([0, 0] : List ℕ).set 1 rp) [N, 1]) 0
          = (fun _ : ℕ => (1 : ℚ)) rp := by
      intro rp hrp
      rw [List.mem_range] at hrp
      have hidx : ([0, 0] : List ℕ).set 1 rp = [0, rp] := rfl
      have hpos : index_to_position [0, rp] [N, 1] = rp := by
        simp [index_to_position]
      rw [hidx, hpos]
      exact getD_replicate N rp 1 0 hrp
    rw [List.map_congr_left hmem, List.map_const', List.length_range]
  have hfold : foldFirst (fun x y => x + y) (List.replicate N (1 : ℚ))
      = some ((N : ℚ)) := by
    obtain ⟨m, rfl⟩ : ∃ m, N = m + 1 := ⟨N - 1, by omega⟩
    rw [List.replicate_succ]
    show some ((List.replicate m (1 : ℚ)).foldl (fun x y => x + y) 1)
      = some (((m + 1 : ℕ) : ℚ))
    rw [foldl_add_replicate]
    push_cast
    ring_nf
  have hacc : reduceAcc (fun x y => x + y) (List.replicate N 1) [N, 1] [0, 0] 1 N
      = some ((N : ℚ)) := by
    rw [reduceAcc_eq_foldFirst, hreads]
    exact hfold
  have hst : tensor_reduce (fun x y => x + y) [0] [1, 1] [1, 1]
      (List.replicate N 1) [1, N] [N, 1] 1 = [(N : ℚ)] := by
    rw [tensor_reduce_eq_applyWrites (fun x y => x + y) [0] [1, 1] [1, 1]
      (List.replicate N 1) [1, N] [N, 1] 1 (by simpa using h)]
    rw [show ([(0 : ℚ)] : Storage).length = 1 from rfl,
      show List.range 1 = ([0] : List ℕ) from rfl, List.map_cons, List.map_nil]
    have hrv : redVal (fun x y => x + y) (List.replicate N 1) [N, 1]
        (to_index 0 [1, 1]) 1 (([1, N] : List ℕ).getD 1 0) = (N : ℚ) := by
      unfold redVal
      rw [show to_index 0 [1, 1] = ([0, 0] : List ℕ) from rfl,
        show (([1, N] : List ℕ).getD 1 0) = N from rfl, hacc]
      rfl
    rw [hrv]
    rfl
  have hsto : (SimpleBackend.add_reduce ⟨List.replicate N 1, [1, N], [N, 1]⟩
        1).storage
      = tensor_reduce (fun x y => x + y) [0] [1, 1] [1, 1]
          (List.replicate N 1) [1, N] [N, 1] 1 := rfl
  have hfin : SimpleBackend.add_reduce ⟨List.replicate N 1, [1, N], [N, 1]⟩ 1
      = ⟨(SimpleBackend.add_reduce ⟨List.replicate N 1, [1, N], [N, 1]⟩ 1).storage,
          [1, 1], [1, 1]⟩ := rfl
  rw [hfin, hsto, hst]

/-- Closed instance of C5, the spec's example: input shape (1,4), storage
[1,1,1,1], reduced along dimension 1, gives shape (1,1), storage [4]. -/
theorem add_reduce_ones_row_witness :
    1 ≤ 4
    ∧ SimpleBackend.add_reduce ⟨[1, 1, 1, 1], [1, 4], [4, 1]⟩ 1
        = ⟨[4], [1, 1], [1, 1]⟩ :=
  ⟨by decide, add_reduce_ones_row 4 (by decide)⟩

/-- C6: mapping the identity function over any tensor returns a tensor that is
elementwise equal to the input at every valid multi-dimensional index (the output
is addressed through its own strides, the input through its own), and applying
map(id) twice yields exactly what applying it once yields. -/
theorem id_map_elementwise_and_idempotent (a : Tensor) :
    (∀ idx, validIndex idx a.shape →
      (SimpleBackend.id_map a).storage.getD
          (index_to_position idx (SimpleBackend.id_map a).strides) 0
        = a.storage.getD (index_to_position idx a.strides) 0)
    ∧ SimpleBackend.id_map (SimpleBackend.id_map a) = SimpleBackend.id_map a := by
  constructor
  · intro idx hv
    have hi : index_to_position idx (strides_from_shape a.shape)
        < operators.prod a.shape := itp_lt_prod idx a.shape hv
    show (SimpleOps.map id a).storage.getD
        (index_to_position idx (strides_from_shape a.shape)) 0
      = a.storage.getD (index_to_position idx a.strides) 0
    rw [simpleMap_getD id a _ hi, to_index_itp_inv idx a.shape hv]
    rfl
  · show SimpleOps.map id (SimpleOps.map id a) = SimpleOps.map id a
    have hst : (SimpleOps.map id (SimpleOps.map id a)).storage
        = (SimpleOps.map id a).storage := by
      apply ext_of_getD _ _ 0
      · rw [simpleMap_storage_length, simpleMap_storage_length]
        rfl
      · intro k hk
        have hk' : k < operators.prod a.shape := by
          rw [simpleMap_storage_length] at hk
          exact hk
        have hk'' : k < operators.prod (SimpleOps.map id a).shape := hk'
        rw [simpleMap_getD id (SimpleOps.map id a) k hk'',
          show (SimpleOps.map id a).shape = a.shape from rfl,
          show (SimpleOps.map id a).strides = strides_from_shape a.shape from rfl,
          to_index_roundtrip a.shape k hk']
        rfl
    have h1 : SimpleOps.map id (SimpleOps.map id a)
        = ⟨(SimpleOps.map id (SimpleOps.map id a)).storage, a.shape,
            strides_from_shape a.shape⟩ := rfl
    have h2 : SimpleOps.map id a
        = ⟨(SimpleOps.map id a).storage, a.shape, strides_from_shape a.shape⟩ := rfl
    exact h1.trans (by rw [hst]; exact h2.symm)

/-- Closed instance of C6's elementwise part at a shape (2) tensor and index
[1]. -/
theorem id_map_elementwise_and_idempotent_witness :
    validIndex [1] [2]
    ∧ (SimpleBackend.id_map ⟨[3, 4], [2], [1]⟩).storage.getD
        (index_to_position [1] (SimpleBackend.id_map ⟨[3, 4], [2], [1]⟩).strides) 0
      = ([3, 4] : Storage).getD (index_to_position [1] [1]) 0 :=
  ⟨by decide,
   (id_map_elementwise_and_idempotent ⟨[3, 4], [2], [1]⟩).1 [1] (by decide)⟩

/-- Under a nonempty reduced dimension the write trace of tensor_reduce is total:
one write per out ordinal, at the ordinal's out position, of the fold value. -/
theorem reduceWrites_eq_map (fnr : ℚ → ℚ → ℚ) (out_len : ℕ)
    (out_shape out_strides : List ℕ) (a_storage : Storage)
    (a_shape a_strides : List ℕ) (reduce_dim : ℕ)
    (hdim : 1 ≤ a_shape.getD reduce_dim 0) :
    reduceWrites fnr out_len out_shape out_strides a_storage a_shape a_strides
        reduce_dim
      = (List.range out_len).map (fun o =>
          (outPos out_shape out_strides o,
           redVal fnr a_storage a_strides (to_index o out_shape) reduce_dim
             (a_shape.getD reduce_dim 0))) := by
  unfold reduceWrites
  apply filterMap_eq_map_of_some
  intro o _
  rw [reduceAcc_eq_some_redVal _ _ _ _ _ _ hdim]
  rfl

/-- C8: with row-major out strides and an out storage of exactly
product(out_shape) cells, one invocation of the map, zip (either path) or reduce
procedure writes every output position exactly once: the list of written
positions is exactly [0, out.length) in order, and each procedure is the
application of precisely that write trace to the out buffer (the inputs are
never written). -/
theorem writes_cover_output_exactly_once (fnm : ℚ → ℚ) (fnz fnr : ℚ → ℚ → ℚ)
    (out : Storage) (out_shape : List ℕ) (in_storage a_storage b_storage : Storage)
    (in_shape in_strides a_shape a_strides b_shape b_strides : List ℕ)
    (reduce_dim : ℕ) (hlen : out.length = operators.prod out_shape) :
    ((mapWrites fnm out_shape (strides_from_shape out_shape) in_storage in_shape
          in_strides).map Prod.fst = List.range out.length
      ∧ tensor_map fnm out out_shape (strides_from_shape out_shape) in_storage
            in_shape in_strides
          = applyWrites (mapWrites fnm out_shape (strides_from_shape out_shape)
              in_storage in_shape in_strides) out)
    ∧ ((zipFastWrites fnz out_shape (strides_from_shape out_shape) a_storage
          a_strides b_storage b_strides).map Prod.fst = List.range out.length
      ∧ (zipGeneralWrites fnz out_shape (strides_from_shape out_shape) a_storage
          a_shape a_strides b_storage b_shape b_strides).map Prod.fst
          = List.range out.length)
    ∧ (1 ≤ a_shape.getD reduce_dim 0 →
        (reduceWrites fnr out.length out_shape (strides_from_shape out_shape)
            a_storage a_shape a_strides reduce_dim).map Prod.fst
            = List.range out.length
        ∧ tensor_reduce fnr out out_shape (strides_from_shape out_shape) a_storage
              a_shape a_strides reduce_dim
            = applyWrites (reduceWrites fnr out.length out_shape
                (strides_from_shape out_shape) a_storage a_shape a_strides
                reduce_dim) out) := by
  refine ⟨⟨?_, rfl⟩, ⟨?_, ?_⟩, fun hdim => ⟨?_, ?_⟩⟩
  · rw [hlen]
    exact map_fst_outPos_range _ out_shape
  · rw [hlen]
    exact map_fst_outPos_range _ out_shape
  · rw [hlen]
    exact map_fst_outPos_range _ out_shape
  · rw [reduceWrites_eq_map fnr out.length out_shape (strides_from_shape out_shape)
      a_storage a_shape a_strides reduce_dim hdim, hlen]
    exact map_fst_outPos_range _ out_shape
  · rw [reduceWrites_eq_map fnr out.length out_shape (strides_from_shape out_shape)
      a_storage a_shape a_strides reduce_dim hdim]
    exact tensor_reduce_eq_applyWrites fnr out out_shape
      (strides_from_shape out_shape) a_storage a_shape a_strides reduce_dim hdim

/-- Closed instance of C8 at out_shape [2]. -/
theorem writes_cover_output_exactly_once_witness :
    ([5, 6] : Storage).length = operators.prod [2]
    ∧ (((mapWrites id [2] (strides_from_shape [2]) [7] [1] [1]).map Prod.fst
          = List.range ([5, 6] : Storage).length
        ∧ tensor_map id [5, 6] [2] (strides_from_shape [2]) [7] [1] [1]
            = applyWrites (mapWrites id [2] (strides_from_shape [2]) [7] [1] [1])
                [5, 6])
      ∧ ((zipFastWrites (fun x y => x + y) [2] (strides_from_shape [2]) [1, 2] [1]
            [3, 4] [1]).map Prod.fst = List.range ([5, 6] : Storage).length
        ∧ (zipGeneralWrites (fun x y => x + y) [2] (strides_from_shape [2]) [1, 2]
            [2] [1] [3, 4] [2] [1]).map Prod.fst
            = List.range ([5, 6] : Storage).length)
      ∧ (1 ≤ ([2] : List ℕ).getD 0 0 →
          (reduceWrites (fun x y => x + y) ([5, 6] : Storage).length [2]
              (strides_from_shape [2]) [1, 2] [2] [1] 0).map Prod.fst
              = List.range ([5, 6] : Storage).length
          ∧ tensor_reduce (fun x y => x + y) [5, 6] [2] (strides_from_shape [2])
                [1, 2] [2] [1] 0
              = applyWrites (reduceWrites (fun x y => x + y)
                  ([5, 6] : Storage).length [2] (strides_from_shape [2]) [1, 2]
                  [2] [1] 0) [5, 6])) :=
  ⟨by decide,
   writes_cover_output_exactly_once id (fun x y => x + y) (fun x y => x + y)
     [5, 6] [2] [7] [1, 2] [3, 4] [1] [1] [2] [1] [2] [1] 0 (by decide)⟩

/-- C10: for every fn and start, when the reduced dimension is nonempty the
function produced by SimpleOps.reduce(fn, start) computes each output value as
the left fold of fn over the input elements along that dimension seeded with the
first element; the start value pre-filled into the output storage is overwritten
by tensor_reduce, so the returned tensor is independent of start. -/
theorem simple_reduce_left_fold_start_independent (fn : ℚ → ℚ → ℚ)
    (start start' : ℚ) (a : Tensor) (dim : ℕ) (hdim : 1 ≤ a.shape.getD dim 0) :
    (∀ o, o < operators.prod (a.shape.set dim 1) →
      foldFirst fn (reduceReads (to_index o (a.shape.set dim 1)) a.storage
          a.strides dim (a.shape.getD dim 0))
        = some ((SimpleOps.reduce fn start a dim).storage.getD o 0))
    ∧ SimpleOps.reduce fn start a dim = SimpleOps.reduce fn start' a dim := by
  set sh := a.shape.set dim 1 with hshdef
  set M := operators.prod sh with hMdef
  have hout : ∀ s : ℚ, (SimpleOps.reduce fn s a dim).storage
      = tensor_reduce fn (List.replicate M s) sh (strides_from_shape sh)
          a.storage a.shape a.strides dim := by
    intro s
    show tensor_reduce fn (List.replicate (List.replicate M (0 : ℚ)).length s) sh
        (strides_from_shape sh) a.storage a.shape a.strides dim = _
    rw [List.length_replicate]
  have hval : ∀ (s : ℚ) (o : ℕ), o < M →
      (tensor_reduce fn (List.replicate M s) sh (strides_from_shape sh) a.storage
          a.shape a.strides dim).getD o 0
        = redVal fn a.storage a.strides (to_index o sh) dim
            (a.shape.getD dim 0) := by
    intro s o ho
    rw [tensor_reduce_eq_applyWrites _ _ _ _ _ _ _ _ hdim, List.length_replicate]
    have hpo : outPos sh (strides_from_shape sh) o = o := to_index_roundtrip sh o ho
    have hb2 : (fun k => outPos sh (strides_from_shape sh) k) o
        < (List.replicate M s).length := by
      show outPos sh (strides_from_shape sh) o < (List.replicate M s).length
      rw [hpo, List.length_replicate]
      exact ho
    have hl2 : ∀ j, o < j → j < M →
        (fun k => outPos sh (strides_from_shape sh) k) j
          ≠ (fun k => outPos sh (strides_from_shape sh) k) o := by
      intro j hj hj'
      show outPos sh (strides_from_shape sh) j ≠ outPos sh (strides_from_shape sh) o
      rw [hpo, show outPos sh (strides_from_shape sh) j = j from
        to_index_roundtrip sh j hj']
      omega
    have hgd' : (applyWrites ((List.range M).map (fun k =>
          (outPos sh (strides_from_shape sh) k,
           redVal fn a.storage a.strides (to_index k sh) dim
             (a.shape.getD dim 0)))) (List.replicate M s)).getD
          (outPos sh (strides_from_shape sh) o) 0
        = redVal fn a.storage a.strides (to_index o sh) dim (a.shape.getD dim 0) :=
      applyWrites_range_getD (fun k => outPos sh (strides_from_shape sh) k)
        (fun k => redVal fn a.storage a.strides (to_index k sh) dim
          (a.shape.getD dim 0))
        (List.replicate M s) M o ho hb2 hl2
    rw [hpo] at hgd'
    exact hgd'
  constructor
  · intro o ho
    rw [hout start, hval start o ho, ← reduceAcc_eq_foldFirst]
    exact reduceAcc_eq_some_redVal _ _ _ _ _ _ hdim
  · have hlen2 : ∀ s : ℚ, (SimpleOps.reduce fn s a dim).storage.length = M := by
      intro s
      rw [hout s, tensor_reduce_eq_applyWrites _ _ _ _ _ _ _ _ hdim,
        applyWrites_length, List.length_replicate]
    have hstor : (SimpleOps.reduce fn start a dim).storage
        = (SimpleOps.reduce fn start' a dim).storage := by
      apply ext_of_getD _ _ 0
      · rw [hlen2 start, hlen2 start']
      · intro o ho
        rw [hlen2 start] at ho
        rw [hout start, hout start', hval start o ho, hval start' o ho]
    have h1 : SimpleOps.reduce fn start a dim
        = ⟨(SimpleOps.reduce fn start a dim).storage, sh, strides_from_shape sh⟩ :=
      rfl
    have h2 : SimpleOps.reduce fn start' a dim
        = ⟨(SimpleOps.reduce fn start' a dim).storage, sh,
            strides_from_shape sh⟩ := rfl
    exact h1.trans (by rw [hstor]; exact h2.symm)

/-- Closed instance of C10 at a shape (2) tensor, subtraction, starts 5 and 7. -/
theorem simple_reduce_left_fold_start_independent_witness :
    1 ≤ ([2] : List ℕ).getD 0 0
    ∧ ((∀ o, o < operators.prod (([2] : List ℕ).set 0 1) →
        foldFirst (fun x y => x - y) (reduceReads (to_index o (([2] : List ℕ).set 0 1))
            [9, 4] [1] 0 (([2] : List ℕ).getD 0 0))
          = some ((SimpleOps.reduce (fun x y => x - y) 5
              ⟨[9, 4], [2], [1]⟩ 0).storage.getD o 0))
      ∧ SimpleOps.reduce (fun x y => x - y) 5 ⟨[9, 4], [2], [1]⟩ 0
          = SimpleOps.reduce (fun x y => x - y) 7 ⟨[9, 4], [2], [1]⟩ 0) :=
  ⟨by decide,
   simple_reduce_left_fold_start_independent (fun x y => x - y) 5 7
     ⟨[9, 4], [2], [1]⟩ 0 (by decide)⟩
